import Mathlib

/-!
# Verification of `src/interpolation_search.cpp`

A shallow embedding of the interpolation-search program.  The C++ `int`
values are modelled by `ℤ`; the `std::vector<int>` holding the sorted data
is modelled by `List ℤ`, indexed through `zget` (out-of-range reads return
a default, they are proved unreachable separately).  The probe position
`low + (((double)(high - low) / (arr[high] - arr[low])) * (target - arr[low]))`
is computed in IEEE-754 binary64 ("double") arithmetic; it is modelled
exactly over `ℚ` by the rounding function `fl` (round to nearest, ties to
even, 53-bit significand — exact for every double in the normal range,
which contains every value this program can produce from `int` inputs),
followed by the C double-to-int conversion `dtrunc` (truncation toward 0).
-/

/-- `arr[i]` of the C++ `std::vector<int>` for an integer index `i`:
total model of subscripting; reads with `i` outside `[0, arr.length)` are
undefined behaviour in C++ and are proved unreachable separately. -/
def zget (arr : List ℤ) (i : ℤ) : ℤ := arr.getD i.toNat 0

/-- `std::clamp(v, lo, hi)`: `v < lo` gives `lo`, `hi < v` gives `hi`,
otherwise `v`. -/
def clampZ (v lo hi : ℤ) : ℤ := if v < lo then lo else if hi < v then hi else v

/-- Round a rational to the nearest integer, ties going to the even
neighbour (the IEEE-754 default rounding used by C++ double arithmetic). -/
def roundHalfEven (q : ℚ) : ℤ :=
  if q - ⌊q⌋ < 1/2 then ⌊q⌋
  else if 1/2 < q - ⌊q⌋ then ⌊q⌋ + 1
  else if ⌊q⌋ % 2 = 0 then ⌊q⌋ else ⌊q⌋ + 1

/-- Floor of the base-2 logarithm on naturals, driven by explicit fuel so
that the kernel can evaluate it; `nlog2 fuel n = Nat.log 2 n` whenever
`n ≤ fuel`. -/
def nlog2 : ℕ → ℕ → ℕ
  | 0, _ => 0
  | fuel + 1, n => if n < 2 then 0 else nlog2 fuel (n / 2) + 1

theorem nlog2_eq_log : ∀ fuel n : ℕ, n ≤ fuel → nlog2 fuel n = Nat.log 2 n := by
  intro fuel
  induction fuel with
  | zero =>
    intro n hn
    interval_cases n
    simp [nlog2]
  | succ fuel ih =>
    intro n hn
    show (if n < 2 then 0 else nlog2 fuel (n / 2) + 1) = Nat.log 2 n
    split
    · exact (Nat.log_eq_zero_iff.mpr (by omega)).symm
    · rw [Nat.log]
      rw [dif_pos (by omega : 2 ≤ n ∧ 1 < 2)]
      rw [ih (n / 2) (by omega)]

/-- The binary exponent of a positive rational: the unique `e : ℤ` with
`2 ^ e ≤ q < 2 ^ (e + 1)` (junk value for `q ≤ 0`). -/
def flExp (q : ℚ) : ℤ :=
  if 1 ≤ q then (nlog2 ⌊q⌋.toNat ⌊q⌋.toNat : ℤ)
  else
    (if 1 ≤ q * 2 ^ nlog2 ⌊q⁻¹⌋.toNat ⌊q⁻¹⌋.toNat then 0 else -1) -
      (nlog2 ⌊q⁻¹⌋.toNat ⌊q⁻¹⌋.toNat : ℤ)

/-- IEEE-754 binary64 rounding of a real (rational) value: round to
nearest, ties to even, at 53 significant bits.  Models every double
operation result in the normal range (no overflow/subnormals, which the
program's `int`-derived magnitudes never reach). -/
def fl (q : ℚ) : ℚ :=
  if q = 0 then 0
  else if q < 0 then
    -((roundHalfEven (-q * 2 ^ ((52 : ℤ) - flExp (-q))) : ℚ) * 2 ^ (flExp (-q) - 52))
  else
    (roundHalfEven (q * 2 ^ ((52 : ℤ) - flExp q)) : ℚ) * 2 ^ (flExp q - 52)

/-- The C++ `double` → `int` conversion: truncation toward zero. -/
def dtrunc (q : ℚ) : ℤ := if q < 0 then -⌊-q⌋ else ⌊q⌋

/-- The raw probe position
`low + (((double)(high - low) / (arr[high] - arr[low])) * (target - arr[low]))`
with `a = arr[low]`, `b = arr[high]`: the `int` operands convert to
`double` exactly, the division, multiplication and addition each round
(`fl`), and the result converts back to `int` by truncation. -/
def probePos (low high a b target : ℤ) : ℤ :=
  dtrunc (fl ((low : ℚ) + fl (fl (((high - low : ℤ) : ℚ) / ((b - a : ℤ) : ℚ)) * ((target - a : ℤ) : ℚ))))

/-- The clamped probe index `pos = clamp(pos, low, high)` actually used to
subscript the array. -/
def probeIdx (arr : List ℤ) (target low high : ℤ) : ℤ :=
  clampZ (probePos low high (zget arr low) (zget arr high) target) low high

/-- The `while` guard
`low <= high && target >= arr[low] && target <= arr[high]`. -/
def loopCond (arr : List ℤ) (target low high : ℤ) : Prop :=
  low ≤ high ∧ zget arr low ≤ target ∧ target ≤ zget arr high

instance loopCond.instDecidable (arr : List ℤ) (target low high : ℤ) :
    Decidable (loopCond arr target low high) := by
  unfold loopCond; infer_instance

/-- The `while` loop of `interpolationSearch`, as a recursive function of
the mutable state `(low, high)`; each branch mirrors one path through the
C++ loop body, and falling out of the guard returns `-1`. -/
def go (arr : List ℤ) (target low high : ℤ) : ℤ :=
  if h : loopCond arr target low high then
    if zget arr high = zget arr low then
      if zget arr low = target then low else -1
    else
      if zget arr (probeIdx arr target low high) = target then
        probeIdx arr target low high
      else if zget arr (probeIdx arr target low high) < target then
        go arr target (probeIdx arr target low high + 1) high
      else
        go arr target low (probeIdx arr target low high - 1)
  else -1
termination_by (high + 1 - low).toNat
decreasing_by
  · have hlh := h.1
    simp only [probeIdx, clampZ]
    split_ifs <;> omega
  · have hlh := h.1
    simp only [probeIdx, clampZ]
    split_ifs <;> omega

/-- `interpolationSearch(arr, target)`: `low` starts at `0` and `high` at
`arr.size() - 1` (which is `-1` for the empty vector, as on the usual
two's-complement targets). -/
def interpolationSearch (arr : List ℤ) (target : ℤ) : ℤ :=
  go arr target 0 ((arr.length : ℤ) - 1)

/-- Fuel-indexed variant of the loop `go`, identical except that it stops
with `none` when `fuel` runs out; used to state that the loop terminates
within `high + 1 - low` iterations. -/
def goFuel : ℕ → List ℤ → ℤ → ℤ → ℤ → Option ℤ
  | 0, _, _, _, _ => none
  | fuel + 1, arr, target, low, high =>
    if loopCond arr target low high then
      if zget arr high = zget arr low then
        some (if zget arr low = target then low else -1)
      else
        if zget arr (probeIdx arr target low high) = target then
          some (probeIdx arr target low high)
        else if zget arr (probeIdx arr target low high) < target then
          goFuel fuel arr target (probeIdx arr target low high + 1) high
        else
          goFuel fuel arr target low (probeIdx arr target low high - 1)
    else some (-1)

/-- `generateSortedArray(size)`: fills a vector with `size` draws from the
random source (`dist(gen)`, one call per index) and sorts it ascending with
`std::sort`.  The random source is modelled by the oracle `draws`; on
integers any correct ascending sort computes the same list, so `std::sort`
is modelled by `List.mergeSort`. -/
def generateSortedArray (size : ℕ) (draws : ℕ → ℤ) : List ℤ :=
  ((List.range size).map draws).mergeSort (fun a b => decide (a ≤ b))

theorem clampZ_bounds {v lo hi : ℤ} (h : lo ≤ hi) :
    lo ≤ clampZ v lo hi ∧ clampZ v lo hi ≤ hi := by
  unfold clampZ
  split
  · exact ⟨le_refl lo, h⟩
  · split
    · exact ⟨h, le_refl hi⟩
    · omega

theorem probeIdx_bounds (arr : List ℤ) (target : ℤ) {low high : ℤ} (h : low ≤ high) :
    low ≤ probeIdx arr target low high ∧ probeIdx arr target low high ≤ high :=
  clampZ_bounds h

theorem go_of_not_loopCond {arr : List ℤ} {target low high : ℤ}
    (h : ¬ loopCond arr target low high) : go arr target low high = -1 := by
  unfold go
  rw [dif_neg h]

theorem go_of_loopCond {arr : List ℤ} {target low high : ℤ}
    (h : loopCond arr target low high) :
    go arr target low high =
      if zget arr high = zget arr low then
        (if zget arr low = target then low else -1)
      else if zget arr (probeIdx arr target low high) = target then
        probeIdx arr target low high
      else if zget arr (probeIdx arr target low high) < target then
        go arr target (probeIdx arr target low high + 1) high
      else
        go arr target low (probeIdx arr target low high - 1) := by
  conv_lhs => unfold go
  rw [dif_pos h]

theorem zget_eq_getElem {arr : List ℤ} {i : ℤ} (h0 : 0 ≤ i) (hn : i < (arr.length : ℤ)) :
    zget arr i = arr.get ⟨i.toNat, by omega⟩ := by
  unfold zget
  exact List.getD_eq_getElem arr 0 (by omega)

theorem zget_mem {arr : List ℤ} {i : ℤ} (h0 : 0 ≤ i) (hn : i < (arr.length : ℤ)) :
    zget arr i ∈ arr := by
  rw [zget_eq_getElem h0 hn]
  exact List.getElem_mem _

theorem zget_mono {arr : List ℤ} (hs : arr.Sorted (· ≤ ·)) {i j : ℤ}
    (h0 : 0 ≤ i) (hij : i ≤ j) (hj : j < (arr.length : ℤ)) :
    zget arr i ≤ zget arr j := by
  rw [zget_eq_getElem h0 (by omega), zget_eq_getElem (by omega) hj]
  have hg := List.Sorted.rel_get_of_le hs
    (a := ⟨i.toNat, by omega⟩) (b := ⟨j.toNat, by omega⟩) (by simp [Fin.le_def]; omega)
  simpa [List.get_eq_getElem] using hg

/-- Combined loop invariant: starting from any in-range state, a non-`-1`
result is an in-range index holding `target` (soundness, no sortedness
needed), and if `target` occurs at some index of `[low, high]` of a sorted
array then the loop does not answer `-1` (completeness). -/
theorem go_spec (arr : List ℤ) (target : ℤ) :
    ∀ (N : ℕ) (low high : ℤ), (high + 1 - low).toNat ≤ N → 0 ≤ low →
      high < (arr.length : ℤ) →
      (go arr target low high ≠ -1 →
        0 ≤ go arr target low high ∧ go arr target low high < (arr.length : ℤ) ∧
          zget arr (go arr target low high) = target) ∧
      (arr.Sorted (· ≤ ·) →
        ∀ k : ℤ, low ≤ k → k ≤ high → zget arr k = target →
          go arr target low high ≠ -1) := by
  intro N
  induction N with
  | zero =>
    intro low high hN h0 hn
    have hng : ¬ loopCond arr target low high := by
      intro hcc
      have := hcc.1
      omega
    rw [go_of_not_loopCond hng]
    constructor
    · intro h
      exact absurd rfl h
    · intro _ k hk1 hk2 _
      omega
  | succ N ih =>
    intro low high hN h0 hn
    by_cases hc : loopCond arr target low high
    · obtain ⟨hlh, hlt, hth⟩ := hc
      have hcc : loopCond arr target low high := ⟨hlh, hlt, hth⟩
      rw [go_of_loopCond hcc]
      have hpb := probeIdx_bounds arr target hlh
      split_ifs with h1 h2 h3 h4
      · exact ⟨fun _ => ⟨h0, by omega, h2⟩, fun _ _ _ _ _ => by omega⟩
      · constructor
        · intro h
          exact absurd rfl h
        · intro hs k hk1 hk2 hkt
          exfalso
          apply h2
          have ha := zget_mono hs h0 hk1 (by omega)
          have hb := zget_mono hs (by omega) hk2 (by omega)
          rw [hkt] at ha hb
          rw [h1] at hb
          omega
      · exact ⟨fun _ => ⟨by omega, by omega, h3⟩, fun _ _ _ _ _ => by omega⟩
      · have hrec := ih (probeIdx arr target low high + 1) high (by omega) (by omega) hn
        constructor
        · exact hrec.1
        · intro hs k hk1 hk2 hkt
          refine hrec.2 hs k ?_ hk2 hkt
          by_contra hkp
          have hkle : k ≤ probeIdx arr target low high := by omega
          have := zget_mono hs (by omega) hkle (by omega)
          rw [hkt] at this
          omega
      · have hrec := ih low (probeIdx arr target low high - 1) (by omega) h0 (by omega)
        constructor
        · exact hrec.1
        · intro hs k hk1 hk2 hkt
          refine hrec.2 hs k hk1 ?_ hkt
          by_contra hkp
          have hple : probeIdx arr target low high ≤ k := by omega
          have := zget_mono hs (by omega) hple (by omega)
          rw [hkt] at this
          omega
    · rw [go_of_not_loopCond hc]
      constructor
      · intro h
        exact absurd rfl h
      · intro hs k hk1 hk2 hkt
        exfalso
        apply hc
        have ha := zget_mono hs h0 hk1 (by omega)
        have hb := zget_mono hs (by omega) hk2 (by omega)
        rw [hkt] at ha hb
        exact ⟨by omega, ha, hb⟩

/-- The fuelled loop agrees with the loop whenever the fuel exceeds the
size of the search interval: the `while` loop runs at most
`high + 1 - low` iterations. -/
theorem goFuel_eq_go (arr : List ℤ) (target : ℤ) :
    ∀ (fuel : ℕ) (low high : ℤ), (high + 1 - low).toNat < fuel →
      goFuel fuel arr target low high = some (go arr target low high) := by
  intro fuel
  induction fuel with
  | zero =>
    intro low high hN
    omega
  | succ fuel ih =>
    intro low high hN
    simp only [goFuel]
    by_cases hc : loopCond arr target low high
    · rw [if_pos hc, go_of_loopCond hc]
      have hpb := probeIdx_bounds arr target hc.1
      split_ifs with h1 h3 h4 h5
      · rfl
      · rfl
      · rfl
      · refine ih _ _ ?_
        omega
      · refine ih _ _ ?_
        omega
    · rw [if_neg hc, go_of_not_loopCond hc]

/-- Computation rule for concrete runs: evaluate the fuelled loop with
`arr.length + 1` fuel (always enough from the initial state). -/
theorem interpolationSearch_eq_of_goFuel {arr : List ℤ} {target r : ℤ}
    (h : goFuel (arr.length + 1) arr target 0 ((arr.length : ℤ) - 1) = some r) :
    interpolationSearch arr target = r := by
  have hg := goFuel_eq_go arr target (arr.length + 1) 0 ((arr.length : ℤ) - 1) (by omega)
  unfold interpolationSearch
  rw [hg] at h
  exact (Option.some.injEq _ _).mp h

set_option maxRecDepth 100000 in
unseal Rat.mul Rat.inv Rat.add Rat.sub in
theorem demo_run : interpolationSearch [10, 20, 30, 40, 50] 40 = 3 :=
  interpolationSearch_eq_of_goFuel (by decide)

/-- C1: for every sorted non-decreasing integer sequence and every target,
if `interpolationSearch` returns an index other than the not-found sentinel
`-1`, that index is a valid 0-based index of the sequence and the element
there equals the target. -/
theorem interpolationSearch_sound (arr : List ℤ) (target : ℤ)
    (hs : arr.Sorted (· ≤ ·)) (h : interpolationSearch arr target ≠ -1) :
    0 ≤ interpolationSearch arr target ∧
      interpolationSearch arr target < (arr.length : ℤ) ∧
      zget arr (interpolationSearch arr target) = target := by
  have hsp := go_spec arr target arr.length 0 ((arr.length : ℤ) - 1)
    (by omega) (by omega) (by omega)
  exact hsp.1 h

theorem interpolationSearch_sound_witness :
    (0 : ℤ) ≤ interpolationSearch [10, 20, 30, 40, 50] 40 ∧
      interpolationSearch [10, 20, 30, 40, 50] 40 <
        (([10, 20, 30, 40, 50] : List ℤ).length : ℤ) ∧
      zget [10, 20, 30, 40, 50] (interpolationSearch [10, 20, 30, 40, 50] 40) = 40 := by
  apply interpolationSearch_sound
  · decide
  · rw [demo_run]
    decide

/-- C2: for every sorted non-decreasing integer sequence and every value
that occurs in it, `interpolationSearch` does not answer the sentinel and
the returned index holds that value. -/
theorem interpolationSearch_complete (arr : List ℤ) (v : ℤ)
    (hs : arr.Sorted (· ≤ ·)) (hv : v ∈ arr) :
    interpolationSearch arr v ≠ -1 ∧ zget arr (interpolationSearch arr v) = v := by
  obtain ⟨i, hi, hiv⟩ := List.mem_iff_getElem.mp hv
  have hzi : zget arr (i : ℤ) = v := by
    rw [zget_eq_getElem (by omega) (by omega)]
    simpa using hiv
  have hsp := go_spec arr v arr.length 0 ((arr.length : ℤ) - 1)
    (by omega) (by omega) (by omega)
  have hne := hsp.2 hs (i : ℤ) (by omega) (by omega) hzi
  exact ⟨hne, (hsp.1 hne).2.2⟩

theorem interpolationSearch_complete_witness :
    interpolationSearch [10, 20, 30, 40, 50] 40 ≠ -1 ∧
      zget [10, 20, 30, 40, 50] (interpolationSearch [10, 20, 30, 40, 50] 40) = 40 :=
  interpolationSearch_complete [10, 20, 30, 40, 50] 40 (by decide) (by decide)

/-- C3: for every sorted non-decreasing integer sequence and every value
occurring nowhere in it, `interpolationSearch` answers the sentinel `-1`;
moreover when the value lies outside `[S[0], S[n-1]]` the loop guard is
false on the initial state, so the body — and with it every probe of an
element — never runs. -/
theorem interpolationSearch_not_found (arr : List ℤ) (v : ℤ)
    (hs : arr.Sorted (· ≤ ·)) (hv : v ∉ arr) :
    interpolationSearch arr v = -1 ∧
      ((v < zget arr 0 ∨ zget arr ((arr.length : ℤ) - 1) < v) →
        ¬ loopCond arr v 0 ((arr.length : ℤ) - 1)) := by
  constructor
  · by_contra hne
    have hsp := go_spec arr v arr.length 0 ((arr.length : ℤ) - 1)
      (by omega) (by omega) (by omega)
    have hres := hsp.1 hne
    exact hv (hres.2.2 ▸ zget_mem hres.1 hres.2.1)
  · intro hout hc
    rcases hout with hlt | hgt
    · exact absurd hc.2.1 (by omega)
    · exact absurd hc.2.2 (by omega)

theorem interpolationSearch_not_found_witness :
    interpolationSearch [10, 20, 30] 99 = -1 ∧
      (((99 : ℤ) < zget [10, 20, 30] 0 ∨
          zget [10, 20, 30] ((([10, 20, 30] : List ℤ).length : ℤ) - 1) < 99) →
        ¬ loopCond [10, 20, 30] 99 0 ((([10, 20, 30] : List ℤ).length : ℤ) - 1)) :=
  interpolationSearch_not_found [10, 20, 30] 99 (by decide) (by decide)

/-- C4: the search loop terminates.  From any state whose guard holds, both
continuation states strictly shrink the interval `[low, high]`, and with
any fuel exceeding the interval size the fuelled loop finishes (is never
`none`) and agrees with the total loop function. -/
theorem go_terminates (arr : List ℤ) (target low high : ℤ) (fuel : ℕ)
    (hf : (high + 1 - low).toNat < fuel) :
    (loopCond arr target low high →
      (high + 1 - (probeIdx arr target low high + 1)).toNat < (high + 1 - low).toNat ∧
      ((probeIdx arr target low high - 1) + 1 - low).toNat < (high + 1 - low).toNat) ∧
    goFuel fuel arr target low high = some (go arr target low high) := by
  constructor
  · intro hc
    have hpb := probeIdx_bounds arr target hc.1
    omega
  · exact goFuel_eq_go arr target fuel low high hf

theorem go_terminates_witness :
    ((4 + 1 - (0 : ℤ)).toNat < 6) ∧
      ((loopCond [10, 20, 30, 40, 50] 40 0 4 →
        ((4 : ℤ) + 1 - (probeIdx [10, 20, 30, 40, 50] 40 0 4 + 1)).toNat <
          ((4 : ℤ) + 1 - 0).toNat ∧
        ((probeIdx [10, 20, 30, 40, 50] 40 0 4 - 1) + 1 - (0 : ℤ)).toNat <
          ((4 : ℤ) + 1 - 0).toNat) ∧
      goFuel 6 [10, 20, 30, 40, 50] 40 0 4 = some (go [10, 20, 30, 40, 50] 40 0 4)) :=
  ⟨by decide, go_terminates [10, 20, 30, 40, 50] 40 0 4 6 (by decide)⟩

/-- C5: in every loop iteration (any state satisfying the in-range
invariant and the loop guard) the indices `low`, `high` and the clamped
probe `pos` all lie in `[0, n-1]`, the interpolation divisor is nonzero
whenever `arr[high] ≠ arr[low]` (the only case in which the division is
reached), and both continuation states satisfy the invariant again. -/
theorem probe_safety (arr : List ℤ) (target low high : ℤ)
    (h0 : 0 ≤ low) (hn : high ≤ (arr.length : ℤ) - 1)
    (hc : loopCond arr target low high) :
    (0 ≤ low ∧ low ≤ (arr.length : ℤ) - 1) ∧
    (0 ≤ high ∧ high ≤ (arr.length : ℤ) - 1) ∧
    (low ≤ probeIdx arr target low high ∧ probeIdx arr target low high ≤ high) ∧
    (0 ≤ probeIdx arr target low high ∧
      probeIdx arr target low high ≤ (arr.length : ℤ) - 1) ∧
    (zget arr high ≠ zget arr low → zget arr high - zget arr low ≠ 0) ∧
    (0 ≤ probeIdx arr target low high + 1 ∧
      0 ≤ low ∧ probeIdx arr target low high - 1 ≤ (arr.length : ℤ) - 1) := by
  have hlh := hc.1
  have hpb := probeIdx_bounds arr target hlh
  refine ⟨⟨h0, by omega⟩, ⟨by omega, hn⟩, hpb, ⟨by omega, by omega⟩, ?_, by omega⟩
  exact fun hne => sub_ne_zero.mpr hne

theorem probe_safety_witness :
    ((0 : ℤ) ≤ 0 ∧ (4 : ℤ) ≤ (([10, 20, 30, 40, 50] : List ℤ).length : ℤ) - 1 ∧
      loopCond [10, 20, 30, 40, 50] 40 0 4) ∧
    (((0 : ℤ) ≤ 0 ∧ (0 : ℤ) ≤ (([10, 20, 30, 40, 50] : List ℤ).length : ℤ) - 1) ∧
    ((0 : ℤ) ≤ 4 ∧ (4 : ℤ) ≤ (([10, 20, 30, 40, 50] : List ℤ).length : ℤ) - 1) ∧
    ((0 : ℤ) ≤ probeIdx [10, 20, 30, 40, 50] 40 0 4 ∧
      probeIdx [10, 20, 30, 40, 50] 40 0 4 ≤ 4) ∧
    ((0 : ℤ) ≤ probeIdx [10, 20, 30, 40, 50] 40 0 4 ∧
      probeIdx [10, 20, 30, 40, 50] 40 0 4 ≤ (([10, 20, 30, 40, 50] : List ℤ).length : ℤ) - 1) ∧
    (zget [10, 20, 30, 40, 50] 4 ≠ zget [10, 20, 30, 40, 50] 0 →
      zget [10, 20, 30, 40, 50] 4 - zget [10, 20, 30, 40, 50] 0 ≠ 0) ∧
    ((0 : ℤ) ≤ probeIdx [10, 20, 30, 40, 50] 40 0 4 + 1 ∧
      (0 : ℤ) ≤ 0 ∧
      probeIdx [10, 20, 30, 40, 50] 40 0 4 - 1 ≤ (([10, 20, 30, 40, 50] : List ℤ).length : ℤ) - 1)) :=
  ⟨⟨by decide, by decide, by decide⟩,
    probe_safety [10, 20, 30, 40, 50] 40 0 4 (by decide) (by decide) (by decide)⟩

/-- C7: on the empty sequence the search returns the sentinel `-1` for
every target, and the loop guard is false at the initial state (`high` is
`-1`), so no element is ever accessed. -/
theorem interpolationSearch_empty (target : ℤ) :
    interpolationSearch [] target = -1 ∧
      ¬ loopCond [] target 0 ((([] : List ℤ).length : ℤ) - 1) := by
  have hng : ¬ loopCond [] target 0 ((([] : List ℤ).length : ℤ) - 1) := by
    intro h
    have h1 := h.1
    simp only [List.length_nil, Nat.cast_zero] at h1
    omega
  exact ⟨go_of_not_loopCond hng, hng⟩

/-- C9: the literal demonstration from `main`:
`interpolationSearch([10,20,30,40,50], 40)` returns index `3`. -/
theorem interpolationSearch_demo : interpolationSearch [10, 20, 30, 40, 50] 40 = 3 :=
  demo_run

/-- C10: on a non-empty all-equal sequence with common value `c`, searching
for `c` returns exactly index `0`: the first guard check succeeds and the
degenerate equal-endpoints branch fires immediately with `low = 0`. -/
theorem interpolationSearch_all_equal (arr : List ℤ) (c : ℤ)
    (hne : arr ≠ []) (hall : ∀ x ∈ arr, x = c) :
    interpolationSearch arr c = 0 := by
  have hn : 0 < arr.length := List.length_pos.mpr hne
  have h0 : zget arr 0 = c := hall _ (zget_mem (by omega) (by omega))
  have hh : zget arr ((arr.length : ℤ) - 1) = c := hall _ (zget_mem (by omega) (by omega))
  unfold interpolationSearch
  rw [go_of_loopCond ⟨by omega, le_of_eq h0, le_of_eq hh.symm⟩]
  rw [if_pos (by rw [hh, h0])]
  rw [if_pos h0]

theorem interpolationSearch_all_equal_witness :
    interpolationSearch [3, 3, 3, 3] 3 = 0 :=
  interpolationSearch_all_equal [3, 3, 3, 3] 3 (by decide) (by decide)

theorem generateSortedArray_sorted (size : ℕ) (draws : ℕ → ℤ) :
    (generateSortedArray size draws).Sorted (· ≤ ·) := by
  have h := @List.sorted_mergeSort ℤ (fun a b => decide (a ≤ b))
    (fun a b c hab hbc => by
      simp only [decide_eq_true_eq] at *
      omega)
    (fun a b => by
      simp only [Bool.or_eq_true, decide_eq_true_eq]
      omega)
    ((List.range size).map draws)
  unfold generateSortedArray List.Sorted
  exact h.imp (fun hab => by simpa using hab)

/-- C8: for every size, `generateSortedArray` returns exactly `size`
integers, non-decreasing position by position, all within `[1, size*10]`
(the random source is an oracle `draws`; `uniform_int_distribution(1,
size*10)` guarantees each draw lies in that interval, stated here as the
hypothesis on `draws`). -/
theorem generateSortedArray_spec (size : ℕ) (draws : ℕ → ℤ)
    (hdr : ∀ i, i < size → 1 ≤ draws i ∧ draws i ≤ (size : ℤ) * 10) :
    (generateSortedArray size draws).length = size ∧
    (∀ i : ℕ, i + 1 < size →
      (generateSortedArray size draws).getD i 0 ≤
        (generateSortedArray size draws).getD (i + 1) 0) ∧
    (∀ x ∈ generateSortedArray size draws, 1 ≤ x ∧ x ≤ (size : ℤ) * 10) := by
  have hlen : (generateSortedArray size draws).length = size := by
    unfold generateSortedArray
    rw [List.length_mergeSort, List.length_map, List.length_range]
  refine ⟨hlen, ?_, ?_⟩
  · intro i hi
    have hs := generateSortedArray_sorted size draws
    have h1 : i < (generateSortedArray size draws).length := by omega
    have h2 : i + 1 < (generateSortedArray size draws).length := by omega
    rw [List.getD_eq_getElem _ _ h1, List.getD_eq_getElem _ _ h2]
    have := List.Sorted.rel_get_of_le hs (a := ⟨i, h1⟩) (b := ⟨i + 1, h2⟩)
      (by simp [Fin.le_def])
    simpa using this
  · intro x hx
    unfold generateSortedArray at hx
    rw [List.mem_mergeSort] at hx
    obtain ⟨i, hi, rfl⟩ := List.mem_map.mp hx
    exact hdr i (List.mem_range.mp hi)

theorem generateSortedArray_spec_witness :
    ((generateSortedArray 3 (fun i => (i : ℤ) + 1)).length = 3 ∧
    (∀ i : ℕ, i + 1 < 3 →
      (generateSortedArray 3 (fun i => (i : ℤ) + 1)).getD i 0 ≤
        (generateSortedArray 3 (fun i => (i : ℤ) + 1)).getD (i + 1) 0) ∧
    (∀ x ∈ generateSortedArray 3 (fun i => (i : ℤ) + 1),
      1 ≤ x ∧ x ≤ ((3 : ℕ) : ℤ) * 10)) :=
  generateSortedArray_spec 3 (fun i => (i : ℤ) + 1)
    (fun i hi => by interval_cases i <;> constructor <;> norm_num)

theorem roundHalfEven_close (q : ℚ) : |(roundHalfEven q : ℚ) - q| ≤ 1 / 2 := by
  have h0 : (⌊q⌋ : ℚ) ≤ q := Int.floor_le q
  have h1 : q < ⌊q⌋ + 1 := Int.lt_floor_add_one q
  unfold roundHalfEven
  split_ifs with ha hb hc <;>
    · rw [abs_le]
      push_cast
      constructor <;> linarith

theorem flExp_bounds {q : ℚ} (hq : 0 < q) :
    (2 : ℚ) ^ flExp q ≤ q ∧ q < 2 ^ (flExp q + 1) := by
  by_cases h1 : 1 ≤ q
  · have hfl : (1 : ℤ) ≤ ⌊q⌋ := Int.le_floor.mpr (by exact_mod_cast h1)
    set m : ℕ := ⌊q⌋.toNat with hm
    have hm0 : m ≠ 0 := by omega
    have hmq : (m : ℚ) ≤ q := by
      have : ((m : ℤ) : ℚ) ≤ q := by
        rw [hm, Int.toNat_of_nonneg (by omega)]
        exact Int.floor_le q
      exact_mod_cast this
    have hqm : q < (m : ℚ) + 1 := by
      have : q < ((m : ℤ) : ℚ) + 1 := by
        rw [hm, Int.toNat_of_nonneg (by omega)]
        exact Int.lt_floor_add_one q
      exact_mod_cast this
    have hlog : flExp q = (Nat.log 2 m : ℤ) := by
      unfold flExp
      rw [if_pos h1, nlog2_eq_log m m (le_refl m)]
    have hpl : (2 : ℕ) ^ Nat.log 2 m ≤ m := Nat.pow_log_le_self 2 hm0
    have hpu : m < (2 : ℕ) ^ (Nat.log 2 m + 1) := Nat.lt_pow_succ_log_self (by norm_num) m
    constructor
    · rw [hlog, zpow_natCast]
      calc ((2 : ℚ) ^ Nat.log 2 m) = ((2 ^ Nat.log 2 m : ℕ) : ℚ) := by push_cast; ring
        _ ≤ (m : ℚ) := by exact_mod_cast hpl
        _ ≤ q := hmq
    · rw [hlog]
      have : ((Nat.log 2 m : ℤ)) + 1 = ((Nat.log 2 m + 1 : ℕ) : ℤ) := by push_cast; ring
      rw [this, zpow_natCast]
      calc q < (m : ℚ) + 1 := hqm
        _ ≤ ((2 ^ (Nat.log 2 m + 1) : ℕ) : ℚ) := by exact_mod_cast hpu
        _ = (2 : ℚ) ^ (Nat.log 2 m + 1) := by push_cast; ring
  · have hq1 : q < 1 := lt_of_not_le h1
    have hr1 : 1 < q⁻¹ := (one_lt_inv₀ hq).2 hq1
    have hrfl : (1 : ℤ) ≤ ⌊q⁻¹⌋ := Int.le_floor.mpr (by exact_mod_cast le_of_lt hr1)
    set m : ℕ := ⌊q⁻¹⌋.toNat with hm
    have hm0 : m ≠ 0 := by omega
    have hmr : (m : ℚ) ≤ q⁻¹ := by
      have hx : ((m : ℤ) : ℚ) ≤ q⁻¹ := by
        rw [hm, Int.toNat_of_nonneg (by omega)]
        exact Int.floor_le q⁻¹
      exact_mod_cast hx
    have hrm : q⁻¹ < (m : ℚ) + 1 := by
      have hx : q⁻¹ < ((m : ℤ) : ℚ) + 1 := by
        rw [hm, Int.toNat_of_nonneg (by omega)]
        exact Int.lt_floor_add_one q⁻¹
      exact_mod_cast hx
    set k : ℕ := Nat.log 2 m with hk
    have hpl : (2 : ℕ) ^ k ≤ m := Nat.pow_log_le_self 2 hm0
    have hpu : m < (2 : ℕ) ^ (k + 1) := Nat.lt_pow_succ_log_self (by norm_num) m
    have h2k : (0 : ℚ) < 2 ^ k := by positivity
    have h2k1 : (0 : ℚ) < 2 ^ (k + 1) := by positivity
    have hql : q * 2 ^ k ≤ 1 := by
      have hx : (2 : ℚ) ^ k ≤ q⁻¹ := by
        calc ((2 : ℚ) ^ k) = ((2 ^ k : ℕ) : ℚ) := by push_cast; ring
          _ ≤ (m : ℚ) := by exact_mod_cast hpl
          _ ≤ q⁻¹ := hmr
      calc q * 2 ^ k ≤ q * q⁻¹ := mul_le_mul_of_nonneg_left hx (le_of_lt hq)
        _ = 1 := mul_inv_cancel₀ (ne_of_gt hq)
    have hqu : 1 < q * 2 ^ (k + 1) := by
      have hx : q⁻¹ < (2 : ℚ) ^ (k + 1) := by
        calc q⁻¹ < (m : ℚ) + 1 := hrm
          _ ≤ ((2 ^ (k + 1) : ℕ) : ℚ) := by exact_mod_cast hpu
          _ = (2 : ℚ) ^ (k + 1) := by push_cast; ring
      calc (1 : ℚ) = q * q⁻¹ := (mul_inv_cancel₀ (ne_of_gt hq)).symm
        _ < q * 2 ^ (k + 1) := mul_lt_mul_of_pos_left hx hq
    have hflE : flExp q = (if 1 ≤ q * 2 ^ k then 0 else -1) - (k : ℤ) := by
      unfold flExp
      rw [if_neg h1, nlog2_eq_log m m (le_refl m), ← hk]
    rw [hflE]
    split_ifs with hcase
    · rw [show (0 : ℤ) - (k : ℤ) = -(k : ℤ) by ring]
      constructor
      · rw [zpow_neg, zpow_natCast, inv_eq_one_div, div_le_iff h2k]
        simpa using hcase
      · rw [show -(k : ℤ) + 1 = 1 - (k : ℤ) by ring, zpow_sub₀ two_ne_zero, zpow_one,
          zpow_natCast, lt_div_iff h2k]
        calc q * 2 ^ k ≤ 1 := hql
          _ < 2 := by norm_num
    · rw [show (-1 : ℤ) - (k : ℤ) = -(((k + 1 : ℕ)) : ℤ) by push_cast; ring]
      constructor
      · rw [zpow_neg, zpow_natCast, inv_eq_one_div, div_le_iff h2k1]
        simpa using le_of_lt hqu
      · rw [show -(((k + 1 : ℕ)) : ℤ) + 1 = -(k : ℤ) by push_cast; ring,
          zpow_neg, zpow_natCast, inv_eq_one_div, lt_div_iff h2k]
        simpa using lt_of_not_le hcase

theorem fl_close {q : ℚ} (hq : 0 ≤ q) : |fl q - q| ≤ q / 2 ^ 53 := by
  rcases eq_or_lt_of_le hq with h0 | hpos
  · rw [← h0]
    simp [fl]
  · have hne : q ≠ 0 := ne_of_gt hpos
    have hnlt : ¬ q < 0 := not_lt.mpr hq
    have hfl : fl q = (roundHalfEven (q * 2 ^ ((52 : ℤ) - flExp q)) : ℚ) * 2 ^ (flExp q - 52) := by
      unfold fl
      rw [if_neg hne, if_neg hnlt]
    set e : ℤ := flExp q with he
    set m : ℚ := q * 2 ^ ((52 : ℤ) - e) with hmdef
    have hqm : q = m * 2 ^ (e - 52) := by
      rw [hmdef, mul_assoc, ← zpow_add₀ (two_ne_zero : (2 : ℚ) ≠ 0)]
      norm_num
    have hrnd := roundHalfEven_close m
    have h2pos : (0 : ℚ) < 2 ^ (e - 52) := by positivity
    have hdist : |fl q - q| = |(roundHalfEven m : ℚ) - m| * 2 ^ (e - 52) := by
      rw [hfl, hqm]
      rw [← sub_mul, abs_mul, abs_of_pos h2pos]
    have hEb : (2 : ℚ) ^ e ≤ q := (flExp_bounds hpos).1
    rw [hdist]
    calc |(roundHalfEven m : ℚ) - m| * 2 ^ (e - 52)
        ≤ (1 / 2) * 2 ^ (e - 52) := mul_le_mul_of_nonneg_right hrnd (le_of_lt h2pos)
      _ = 2 ^ (e - 53) := by
          rw [show e - 53 = (-1 : ℤ) + (e - 52) by ring, zpow_add₀ (two_ne_zero : (2 : ℚ) ≠ 0)]
          norm_num
      _ ≤ q / 2 ^ 53 := by
          rw [div_eq_mul_inv, show e - 53 = e + (-53 : ℤ) by ring,
            zpow_add₀ (two_ne_zero : (2 : ℚ) ≠ 0),
            show (2 : ℚ) ^ (-53 : ℤ) = ((2 : ℚ) ^ (53 : ℕ))⁻¹ by rw [zpow_neg]; norm_num]
          exact mul_le_mul_of_nonneg_right hEb (by positivity)

theorem fl_nonneg {q : ℚ} (hq : 0 ≤ q) : 0 ≤ fl q := by
  have h := fl_close hq
  have h2 : q / 2 ^ 53 ≤ q := div_le_self hq (by norm_num)
  rw [abs_le] at h
  linarith [h.1]

set_option maxHeartbeats 1600000 in
/-- C6 amended: whenever the probe is computed (`low < high`,
`S[low] < S[high]`, `S[low] ≤ t ≤ S[high]`, indices in the `int` range),
the computed position is `low` plus the truncation of the double-precision
(binary64, round-to-nearest) evaluation of
`(high - low) / (S[high] - S[low]) * (t - S[low])`; the rounding errors
keep it within distance 1 of the exact value
`low + floor((high - low) * (t - S[low]) / (S[high] - S[low]))`, but it
does not always equal it. -/
theorem probePos_close (low high a b t : ℤ)
    (h0 : 0 ≤ low) (hlh : low < high) (hhi : high < 2 ^ 31)
    (hab : a < b) (hat : a ≤ t) (htb : t ≤ b) :
    |probePos low high a b t -
        (low + ⌊(((high - low) * (t - a) : ℤ) : ℚ) / (((b - a) : ℤ) : ℚ)⌋)| ≤ 1 := by
  have hprobe : probePos low high a b t =
      dtrunc (fl ((low : ℚ) +
        fl (fl (((high - low : ℤ) : ℚ) / ((b - a : ℤ) : ℚ)) * ((t - a : ℤ) : ℚ)))) := rfl
  rw [hprobe]
  set L : ℚ := (low : ℚ) with hL
  set hl : ℚ := ((high - low : ℤ) : ℚ) with hhl
  set den : ℚ := ((b - a : ℤ) : ℚ) with hden
  set tn : ℚ := ((t - a : ℤ) : ℚ) with htn
  have hL0 : 0 ≤ L := by
    rw [hL]
    exact_mod_cast h0
  have hhl0 : 0 < hl := by
    rw [hhl]
    exact_mod_cast (by omega : (0 : ℤ) < high - low)
  have hden0 : 0 < den := by
    rw [hden]
    exact_mod_cast (by omega : (0 : ℤ) < b - a)
  have htn0 : 0 ≤ tn := by
    rw [htn]
    exact_mod_cast (by omega : (0 : ℤ) ≤ t - a)
  have htnden : tn ≤ den := by
    rw [htn, hden]
    exact_mod_cast (by omega : t - a ≤ b - a)
  have hLB : L ≤ 2 ^ 31 := by
    rw [hL]
    exact_mod_cast (by omega : low ≤ 2 ^ 31)
  have hhlB : hl ≤ 2 ^ 31 := by
    rw [hhl]
    exact_mod_cast (by omega : high - low ≤ 2 ^ 31)
  have hnum : (((high - low) * (t - a) : ℤ) : ℚ) = hl * tn := by
    rw [hhl, htn]
    push_cast
    ring
  rw [hnum]
  set x : ℚ := hl / den with hx
  have hx0 : 0 < x := div_pos hhl0 hden0
  have hquot : hl * tn / den = x * tn := by
    rw [hx]
    ring
  rw [hquot]
  have hxtn0 : 0 ≤ x * tn := mul_nonneg (le_of_lt hx0) htn0
  have hxyB : x * tn ≤ 2 ^ 31 := by
    have h1 : x * tn = hl * tn / den := by
      rw [hx]
      ring
    rw [h1, div_le_iff₀ hden0]
    calc hl * tn ≤ hl * den := mul_le_mul_of_nonneg_left htnden (le_of_lt hhl0)
      _ ≤ 2 ^ 31 * den := mul_le_mul_of_nonneg_right hhlB (le_of_lt hden0)
  set c : ℚ := (2 : ℚ) ^ (53 : ℕ) with hc
  have hc0 : (0 : ℚ) < c := by positivity
  have hc1 : (1 : ℚ) ≤ c := by
    rw [hc]
    norm_num
  set d1 : ℚ := fl x with hd1def
  have e1 : |d1 - x| ≤ x / c := fl_close (le_of_lt hx0)
  have hd1nn : 0 ≤ d1 := fl_nonneg (le_of_lt hx0)
  have hxc : x / c ≤ x := div_le_self (le_of_lt hx0) hc1
  have hd1le : d1 ≤ 2 * x := by
    rw [abs_le] at e1
    linarith [e1.2]
  set p : ℚ := fl (d1 * tn) with hpdef
  have hp0 : 0 ≤ d1 * tn := mul_nonneg hd1nn htn0
  have e2 : |p - d1 * tn| ≤ d1 * tn / c := fl_close hp0
  have hpnn : 0 ≤ p := fl_nonneg hp0
  have hstep1 : |d1 * tn - x * tn| ≤ x * tn / c := by
    rw [← sub_mul, abs_mul, abs_of_nonneg htn0]
    calc |d1 - x| * tn ≤ x / c * tn := mul_le_mul_of_nonneg_right e1 htn0
      _ = x * tn / c := by ring
  have hd1tn_le : d1 * tn ≤ 2 * (x * tn) := by
    calc d1 * tn ≤ 2 * x * tn := mul_le_mul_of_nonneg_right hd1le htn0
      _ = 2 * (x * tn) := by ring
  have hdiv2 : d1 * tn / c ≤ 2 * (x * tn / c) := by
    have h2 : d1 * tn / c ≤ 2 * (x * tn) / c := (div_le_div_right hc0).mpr hd1tn_le
    have h3 : 2 * (x * tn) / c = 2 * (x * tn / c) := by ring
    linarith
  have hstep2 : |p - x * tn| ≤ 3 * (x * tn / c) := by
    have h1 := abs_sub_le p (d1 * tn) (x * tn)
    linarith [e2, hstep1, hdiv2]
  have hp_le : p ≤ 4 * (x * tn) := by
    have h1 := le_abs_self (p - x * tn)
    have h2 : x * tn / c ≤ x * tn := div_le_self hxtn0 hc1
    linarith [hstep2]
  set s : ℚ := fl (L + p) with hsdef
  have hLp0 : 0 ≤ L + p := by linarith
  have e3 : |s - (L + p)| ≤ (L + p) / c := fl_close hLp0
  have hsnn : 0 ≤ s := fl_nonneg hLp0
  have hfinal : |s - (L + x * tn)| < 1 := by
    have h1 := abs_sub_le s (L + p) (L + x * tn)
    have h2 : |L + p - (L + x * tn)| = |p - x * tn| := by
      congr 1
      ring
    have h3 : (L + p) / c ≤ (5 * 2 ^ 31) / c :=
      (div_le_div_right hc0).mpr (by linarith [hp_le, hxyB, hLB])
    have h4 : x * tn / c ≤ (2 ^ 31 : ℚ) / c := (div_le_div_right hc0).mpr hxyB
    have h5 : ((5 * 2 ^ 31 : ℚ)) / c + 3 * ((2 ^ 31 : ℚ) / c) < 1 := by
      rw [hc]
      norm_num
    have h6 := abs_le.mp e3
    have h7 := abs_le.mp hstep2
    rw [h2] at h1
    rw [abs_lt]
    constructor <;> linarith
  have hdt : dtrunc s = ⌊s⌋ := by
    unfold dtrunc
    rw [if_neg (not_lt.mpr hsnn)]
  rw [hdt]
  have hfloor_add : low + ⌊x * tn⌋ = ⌊L + x * tn⌋ := by
    rw [hL, Int.floor_int_add]
  set u : ℚ := L + x * tn with hu
  have habs := abs_lt.mp hfinal
  have hup : ⌊s⌋ ≤ ⌊u⌋ + 1 := by
    have hle : s ≤ u + 1 := by linarith [habs.2]
    calc ⌊s⌋ ≤ ⌊u + 1⌋ := Int.floor_mono hle
      _ = ⌊u⌋ + 1 := by
        have := Int.floor_add_int u 1
        simpa using this
  have hdn : ⌊u⌋ - 1 ≤ ⌊s⌋ := by
    have hle : u - 1 ≤ s := by linarith [habs.1]
    have h1 : ⌊u - 1⌋ ≤ ⌊s⌋ := Int.floor_mono hle
    have h2 : ⌊u - 1⌋ = ⌊u⌋ - 1 := by
      have := Int.floor_sub_int u 1
      simpa using this
    omega
  rw [hfloor_add]
  rw [abs_le]
  omega

set_option maxRecDepth 1000000 in
unseal Rat.mul Rat.inv Rat.add Rat.sub in
/-- C6 falsified: at `low = 0, high = 1, S[low] = 0, S[high] = 49, t = 49`
— the first iteration of `interpolationSearch [0, 49] 49`, with every side
condition of the claim holding — the double-precision probe computes
position `0`, while `low + floor((high - low) * (t - S[low]) / (S[high] -
S[low])) = 1`: in binary64, `(1.0 / 49.0) * 49.0` rounds to just below `1`
and the conversion to `int` truncates it to `0`. -/
theorem probePos_ne_exact_floor :
    ((0 : ℤ) < 1 ∧ (0 : ℤ) < 49 ∧ (0 : ℤ) ≤ 49 ∧ (49 : ℤ) ≤ 49) ∧
      probePos 0 1 0 49 49 = 0 ∧
      (0 : ℤ) + ⌊(((1 - 0) * (49 - 0) : ℤ) : ℚ) / (((49 - 0) : ℤ) : ℚ)⌋ = 1 ∧
      probePos 0 1 0 49 49 ≠
        (0 : ℤ) + ⌊(((1 - 0) * (49 - 0) : ℤ) : ℚ) / (((49 - 0) : ℤ) : ℚ)⌋ := by
  refine ⟨by decide, by decide, by decide, by decide⟩

theorem probePos_close_witness :
    ((0 : ℤ) ≤ 0 ∧ (0 : ℤ) < 1 ∧ (1 : ℤ) < 2 ^ 31 ∧
        (0 : ℤ) < 49 ∧ (0 : ℤ) ≤ 49 ∧ (49 : ℤ) ≤ 49) ∧
      |probePos 0 1 0 49 49 -
          (0 + ⌊(((1 - 0) * (49 - 0) : ℤ) : ℚ) / (((49 - 0) : ℤ) : ℚ)⌋)| ≤ 1 :=
  ⟨⟨by decide, by decide, by decide, by decide, by decide, by decide⟩,
    probePos_close 0 1 0 49 49 (by decide) (by decide) (by decide)
      (by decide) (by decide) (by decide)⟩
